import Mathlib

set_option maxRecDepth 40000

/-!
Verification of the mock-usage scanning/aggregation/classification/reporting
pipeline implemented in `scripts/implement-mock-replacement.js`.

The JavaScript is embedded shallowly:
  * a scanned file tree is a list of `SourceFile` (path plus lines);
  * `grep -r pattern` over the tree is `grepTree`, emitting one `RawMatch`
    per line that contains the pattern as a substring;
  * `findMockUsage` folds the raw matches through the exclusion filters and
    the find/push deduplication exactly as the script's `forEach` body does;
  * `categorizeMockUsageByModule` mirrors the if/else path-substring chain;
  * `renderReport` rebuilds the report string of `main` by concatenation.
-/

/-- Substring test on character lists: JavaScript `String.prototype.includes`. -/
def listContainsSub (p : List Char) : List Char → Bool
  | [] => p.isEmpty
  | c :: t => List.isPrefixOf p (c :: t) || listContainsSub p t

/-- `strContains s pat` is JavaScript `s.includes(pat)`. -/
def strContains (s pat : String) : Bool :=
  listContainsSub pat.data s.data

/-- One grep output line: a file path, the matched line (context), and the
pattern that produced it. -/
structure RawMatch where
  filepath : String
  context : String
  pattern : String
deriving DecidableEq

/-- One entry of the `results` array built by `findMockUsage`:
`{ filepath, matches }` (the `matches` field is named `matchLines` here). -/
structure FileEntry where
  filepath : String
  matchLines : List String
deriving DecidableEq

/-- A file of the scanned tree: its path and its lines. -/
structure SourceFile where
  path : String
  lines : List String
deriving DecidableEq

/-- Line 51 of the script: `filepath.includes('test') ||
filepath.includes('__tests__') || filepath.includes('spec')`. -/
def isTestPath (fp : String) : Bool :=
  strContains fp "test" || strContains fp "__tests__" || strContains fp "spec"

/-- Line 56: `filepath.includes('node_modules')`. -/
def isNodeModulesPath (fp : String) : Bool :=
  strContains fp "node_modules"

/-- Character-wise lowercasing: JavaScript `String.prototype.toLowerCase`. -/
def strToLower (s : String) : String :=
  String.mk (s.data.map Char.toLower)

/-- Line 61: `context.toLowerCase().includes('database')`. -/
def isDatabaseContext (ctx : String) : Bool :=
  strContains (strToLower ctx) "database"

/-- Lines 66-77 of the script: look up the first entry with this filepath;
push the context into it unless already present, else append a new entry. -/
def addContext : List FileEntry → String → String → List FileEntry
  | [], fp, ctx => [⟨fp, [ctx]⟩]
  | e :: rest, fp, ctx =>
      if e.filepath = fp then
        (if ctx ∈ e.matchLines then e else ⟨e.filepath, e.matchLines ++ [ctx]⟩) :: rest
      else
        e :: addContext rest fp ctx

/-- The body of the `lines.forEach` loop (lines 45-78): the three skip
conditions followed by the deduplicating insertion. -/
def processLine (results : List FileEntry) (fp ctx : String) : List FileEntry :=
  if isTestPath fp then results
  else if isNodeModulesPath fp then results
  else if isDatabaseContext ctx then results
  else addContext results fp ctx

/-- The aggregation performed by `findMockUsage` on the stream of grep
matches, pattern-major as in the script's nested `forEach` loops. -/
def aggregate (ms : List RawMatch) : List FileEntry :=
  ms.foldl (fun r m => processLine r m.filepath m.context) []

/-- `MOCK_PATTERNS` of the script. -/
def MOCK_PATTERNS : List String :=
  ["mock", "fake", "dummy", "placeholder", "sample data", "test data",
   "staticData", "mockData", "MOCK_"]

/-- grep of one pattern over one file: one `RawMatch` per line containing
the pattern. -/
def grepFile (pat : String) (f : SourceFile) : List RawMatch :=
  (f.lines.filter (fun l => strContains l pat)).map (fun l => ⟨f.path, l, pat⟩)

/-- grep of one pattern over the whole tree. -/
def grepTree (pat : String) (tree : List SourceFile) : List RawMatch :=
  (tree.map (grepFile pat)).flatten

/-- All raw matches of the run, pattern-major: the script loops
`MOCK_PATTERNS.forEach` and greps the tree once per pattern. -/
def scanAll (patterns : List String) (tree : List SourceFile) : List RawMatch :=
  (patterns.map (fun p => grepTree p tree)).flatten

/-- `findMockUsage` of the script, with the pattern set and the file tree
made explicit: grep each pattern in order, then aggregate. -/
def findMockUsage (patterns : List String) (tree : List SourceFile) : List FileEntry :=
  aggregate (scanAll patterns tree)

/-- A generalized exclusion-predicate list, as in the spec's `aggregate`
contract: a match is excluded when any predicate accepts its
(filePath, lineContext) pair. -/
def excludedBy (ps : List (String → String → Bool)) (fp ctx : String) : Bool :=
  ps.any (fun p => p fp ctx)

/-- Aggregation parameterized by the exclusion predicates. -/
def aggregateWith (ps : List (String → String → Bool)) (ms : List RawMatch) :
    List FileEntry :=
  ms.foldl (fun r m =>
    if excludedBy ps m.filepath m.context then r
    else addContext r m.filepath m.context) []

/-- The script's three exclusion predicates, in evaluation order. -/
def stdExclusions : List (String → String → Bool) :=
  [fun fp _ => isTestPath fp,
   fun fp _ => isNodeModulesPath fp,
   fun _ ctx => isDatabaseContext ctx]

/-- A raw match survives the exclusion predicates. -/
def keepMatch (ps : List (String → String → Bool)) (m : RawMatch) : Bool :=
  !(excludedBy ps m.filepath m.context)

/-- The raw matches that survive the exclusion predicates, in order. -/
def keptBy (ps : List (String → String → Bool)) (ms : List RawMatch) :
    List RawMatch :=
  ms.filter (keepMatch ps)

/-- Contexts of the raw matches for one filepath, in stream order. -/
def contextsFor (fp : String) (ms : List RawMatch) : List String :=
  (ms.filter (fun m => m.filepath == fp)).map RawMatch.context

/-- The filepaths of the aggregated entries, in order. -/
def entryPaths (r : List FileEntry) : List String :=
  r.map FileEntry.filepath

/-- The first aggregated entry with the given filepath, as found by the
script's `results.find(entry => entry.filepath === filepath)`. -/
def entryFor (r : List FileEntry) (fp : String) : Option FileEntry :=
  r.find? (fun e => e.filepath == fp)

/-- The stored contexts for one filepath ([] when no entry exists). -/
def ctxsFor (r : List FileEntry) (fp : String) : List String :=
  match entryFor r fp with
  | some e => e.matchLines
  | none => []

/-- Append an element unless already present (the per-entry dedup step). -/
def pushCtx (l : List String) (c : String) : List String :=
  if c ∈ l then l else l ++ [c]

/-- First-occurrence deduplication, carrying the set of already-seen
elements. -/
def dedupFirstAux (seen : List String) : List String → List String
  | [] => []
  | c :: cs =>
      if c ∈ seen then dedupFirstAux seen cs
      else c :: dedupFirstAux (seen ++ [c]) cs

/-- Keep the first occurrence of each element, preserving order. -/
def dedupFirst (l : List String) : List String :=
  dedupFirstAux [] l

/-- Pure grouping (no exclusion): fold the find/push insertion. -/
def groupMatches (ms : List RawMatch) : List FileEntry :=
  ms.foldl (fun r m => addContext r m.filepath m.context) []

/-- One bucket of `categorizeMockUsageByModule`: a key of the `modules`
object and its array of entries. -/
structure ModuleBucket where
  moduleName : String
  entries : List FileEntry
deriving DecidableEq

/-- The if/else chain of `categorizeMockUsageByModule` (lines 101-117),
translated literally. -/
def moduleOfPath (fp : String) : String :=
  if strContains fp "/auth/" || strContains fp "/authentication/" then "auth"
  else if strContains fp "/assessment/" then "assessment"
  else if strContains fp "/item/" || strContains fp "/item-banking/" then "item-banking"
  else if strContains fp "/psychometric/" then "psychometric"
  else if strContains fp "/results/" then "results"
  else if strContains fp "/admin/" then "admin"
  else if strContains fp "/analytics/" then "analytics"
  else if strContains fp "/ui/" || strContains fp "/components/" then "ui"
  else "unknown"

/-- The same chain as an ordered rule list (pathSubstring, moduleName);
rules sharing a module mirror the script's `||` conditions. -/
def classifyRules : List (String × String) :=
  [("/auth/", "auth"), ("/authentication/", "auth"),
   ("/assessment/", "assessment"),
   ("/item/", "item-banking"), ("/item-banking/", "item-banking"),
   ("/psychometric/", "psychometric"),
   ("/results/", "results"),
   ("/admin/", "admin"),
   ("/analytics/", "analytics"),
   ("/ui/", "ui"), ("/components/", "ui")]

/-- Classification by an ordered rule list: the first rule whose path
substring occurs in the filepath wins; default "unknown". -/
def moduleOfRules (rules : List (String × String)) (fp : String) : String :=
  match rules.find? (fun r => strContains fp r.1) with
  | some r => r.2
  | none => "unknown"

/-- `modules[module].push(entry)`, with object keys in insertion order:
append to the existing bucket, or create it at the end. -/
def addToBucket : List ModuleBucket → String → FileEntry → List ModuleBucket
  | [], m, e => [⟨m, [e]⟩]
  | b :: rest, m, e =>
      if b.moduleName = m then ⟨b.moduleName, b.entries ++ [e]⟩ :: rest
      else b :: addToBucket rest m e

/-- Classification of a group sequence by an ordered rule list. -/
def categorize (rules : List (String × String)) (gs : List FileEntry) :
    List ModuleBucket :=
  gs.foldl (fun bs g => addToBucket bs (moduleOfRules rules g.filepath) g) []

/-- `categorizeMockUsageByModule` of the script: the literal if/else chain
folded over the entries. -/
def categorizeMockUsageByModule (gs : List FileEntry) : List ModuleBucket :=
  gs.foldl (fun bs g => addToBucket bs (moduleOfPath g.filepath) g) []

/-- The bucket names in insertion order. -/
def bucketNames (bs : List ModuleBucket) : List String :=
  bs.map ModuleBucket.moduleName

/-- The first bucket with the given name. -/
def bucketFor (bs : List ModuleBucket) (m : String) : Option ModuleBucket :=
  bs.find? (fun b => b.moduleName == m)

/-- The entries stored under one module name ([] when absent). -/
def entriesFor (bs : List ModuleBucket) (m : String) : List FileEntry :=
  match bucketFor bs m with
  | some b => b.entries
  | none => []

/-- `module.charAt(0).toUpperCase() + module.slice(1)`. -/
def capitalize (s : String) : String :=
  match s.data with
  | [] => ""
  | c :: t => String.mk (c.toUpper :: t)

/-- The fixed header of the report (lines 148-156 of the script). -/
def reportHeader : String :=
  "# Workstream Mock Replacement Report\n\n## Overview\n\nThis report identifies mock data usage in the codebase that needs to be replaced with real Supabase database integration. This is part of the `workstream-mock-replacement` initiative, which aims to enhance the application's reliability by using real data.\n\n## Mock Data Usage\n\n"

/-- The per-file block of the report (lines 162-169): note the context
header is a single-quoted JavaScript string, so its placeholder is
emitted verbatim. -/
def renderEntry (e : FileEntry) : String :=
  "#### `" ++ e.filepath ++ "`\n\n" ++
  "Context (showing 1 of $\x7bentry.matches.length\x7d matches):\n\n" ++
  (match e.matchLines with
   | [] => ""
   | m :: _ => "```\n" ++ m ++ "\n```\n\n")

/-- The per-module section of the report (lines 158-170). -/
def renderBucket (b : ModuleBucket) : String :=
  "### " ++ capitalize b.moduleName ++ " Module\n\n" ++
  "Files with mock data:\n\n" ++
  String.join (b.entries.map renderEntry)

/-- The fixed closing section of the report (lines 172-190). -/
def reportFooter : String :=
  "## Implementation Steps\n\nFor complete implementation details, please run the full script locally:\n```bash\nnode scripts/implement-mock-replacement.js\n```\n\nThis script will:\n1. Analyze mock data usage across all modules\n2. Generate a detailed replacement strategy for each module\n3. Create test data utilities for testing\n4. Provide code examples for the replacement process\n\nThe full implementation will also generate the following patterns:\n- Loading state components\n- SWR integration for data fetching\n- Error handling patterns\n- Database connectivity monitoring\n"

/-- The whole report text assembled by `main`. -/
def renderReport (bs : List ModuleBucket) : String :=
  reportHeader ++ String.join (bs.map renderBucket) ++ reportFooter

/-- The pipeline with explicit pattern set and classifier rules. -/
def runPipeline (patterns : List String) (rules : List (String × String))
    (tree : List SourceFile) : String :=
  renderReport (categorize rules (findMockUsage patterns tree))

/-- `main`'s report for a given tree, with the script's own patterns and
module rules. -/
def mainReport (tree : List SourceFile) : String :=
  renderReport (categorizeMockUsageByModule (findMockUsage MOCK_PATTERNS tree))

/-- The body of `main` inside its try/catch: every stage of the embedded
pipeline is total, so the catch branch (exit code 1) is unreachable. -/
def runMain (tree : List SourceFile) : Except String String :=
  Except.ok (mainReport tree)

/-- Exit status of the process: 0 unless the catch branch ran. -/
def exitCode (r : Except String String) : Nat :=
  match r with
  | Except.ok _ => 0
  | Except.error _ => 1

/-- All stored (filepath, context) pairs of an aggregate result. -/
def entryPairs (r : List FileEntry) : List (String × String) :=
  (r.map (fun e => e.matchLines.map (fun c => (e.filepath, c)))).flatten

/-- Total number of stored contexts across all entries. -/
def totalContexts (r : List FileEntry) : Nat :=
  (r.map (fun e => e.matchLines.length)).sum

/-- The report's context-header line exactly as the single-quoted
JavaScript string emits it: the placeholder is literal text. -/
def contextHeaderLine : String :=
  "Context (showing 1 of $\x7bentry.matches.length\x7d matches):"

/-- Two-file tree where each file is matched by a different pattern. -/
def treeAB : List SourceFile :=
  [⟨"a.ts", ["mockA"]⟩, ⟨"b.ts", ["MOCK_B"]⟩]

/-- The spec's scenario tree: one assessment file using mock data. -/
def treeC7 : List SourceFile :=
  [⟨"src/assessment/loader.ts", ["const mockData = load();"]⟩]

/-- A tree in which no configured pattern matches any line. -/
def treeNoMatch : List SourceFile :=
  [⟨"src/app/page.ts", ["hello world"]⟩]

theorem listContainsSub_iff (p l : List Char) :
    listContainsSub p l = true ↔ p <:+: l := by
  induction l with
  | nil =>
      simp [listContainsSub, List.isEmpty_iff, List.infix_nil]
  | cons c t ih =>
      simp only [listContainsSub, Bool.or_eq_true, ih, List.infix_cons_iff,
        List.isPrefixOf_iff_prefix]

theorem strContains_iff (s pat : String) :
    strContains s pat = true ↔ pat.data <:+: s.data := by
  simp [strContains, listContainsSub_iff]

theorem strContains_middle (a pat b : String) :
    strContains (a ++ pat ++ b) pat = true := by
  rw [strContains_iff]
  exact ⟨a.data, b.data, by simp [String.data_append]⟩

theorem dedupFirstAux_sublist (seen l : List String) :
    (dedupFirstAux seen l).Sublist l := by
  induction l generalizing seen with
  | nil => simp [dedupFirstAux]
  | cons c cs ih =>
      rw [dedupFirstAux]
      split
      · exact (ih seen).cons c
      · exact (ih (seen ++ [c])).cons₂ c

theorem mem_dedupFirstAux (a : String) (seen l : List String) :
    a ∈ dedupFirstAux seen l ↔ a ∈ l ∧ a ∉ seen := by
  induction l generalizing seen with
  | nil => simp [dedupFirstAux]
  | cons c cs ih =>
      rw [dedupFirstAux]
      split
      · rename_i hc
        rw [ih]
        constructor
        · rintro ⟨h1, h2⟩
          exact ⟨List.mem_cons_of_mem c h1, h2⟩
        · rintro ⟨h1, h2⟩
          rcases List.mem_cons.1 h1 with h | h
          · exact absurd (h ▸ hc) h2
          · exact ⟨h, h2⟩
      · rename_i hc
        simp only [List.mem_cons, ih, List.mem_append, List.mem_singleton]
        constructor
        · rintro (rfl | ⟨h1, h2⟩)
          · exact ⟨Or.inl rfl, hc⟩
          · exact ⟨Or.inr h1, fun hs => h2 (Or.inl hs)⟩
        · rintro ⟨rfl | h1, h2⟩
          · exact Or.inl rfl
          · by_cases hac : a = c
            · exact Or.inl hac
            · exact Or.inr ⟨h1, by simp [h2, hac]⟩

theorem dedupFirstAux_nodup (seen l : List String) :
    (dedupFirstAux seen l).Nodup := by
  induction l generalizing seen with
  | nil => simp [dedupFirstAux]
  | cons c cs ih =>
      rw [dedupFirstAux]
      split
      · exact ih seen
      · refine List.Nodup.cons ?_ (ih (seen ++ [c]))
        intro hc
        rcases (mem_dedupFirstAux c (seen ++ [c]) cs).1 hc with ⟨_, h2⟩
        exact h2 (by simp)

theorem dedupFirst_sublist (l : List String) : (dedupFirst l).Sublist l :=
  dedupFirstAux_sublist [] l

theorem mem_dedupFirst (a : String) (l : List String) :
    a ∈ dedupFirst l ↔ a ∈ l := by
  simp [dedupFirst, mem_dedupFirstAux]

theorem dedupFirst_nodup (l : List String) : (dedupFirst l).Nodup :=
  dedupFirstAux_nodup [] l

theorem foldl_pushCtx (l acc : List String) :
    l.foldl pushCtx acc = acc ++ dedupFirstAux acc l := by
  induction l generalizing acc with
  | nil => simp [dedupFirstAux]
  | cons c cs ih =>
      rw [List.foldl_cons, dedupFirstAux, pushCtx]
      split
      · exact ih acc
      · rw [ih (acc ++ [c]), List.append_assoc, List.singleton_append]

theorem dedupFirst_toFinset (l : List String) :
    (dedupFirst l).toFinset = l.toFinset := by
  ext a
  simp [List.mem_toFinset, mem_dedupFirst]

theorem dedupFirst_length_mono {l1 l2 : List String} (h : l1.Sublist l2) :
    (dedupFirst l1).length ≤ (dedupFirst l2).length := by
  rw [← List.toFinset_card_of_nodup (dedupFirst_nodup l1),
      ← List.toFinset_card_of_nodup (dedupFirst_nodup l2),
      dedupFirst_toFinset, dedupFirst_toFinset]
  exact Finset.card_le_card fun a ha =>
    List.mem_toFinset.2 (h.subset (List.mem_toFinset.1 ha))

theorem nodup_length_le_of_subset {α : Type} [DecidableEq α] {l1 l2 : List α}
    (h1 : l1.Nodup) (hsub : l1 ⊆ l2) (h2 : l2.Nodup) : l1.length ≤ l2.length := by
  rw [← List.toFinset_card_of_nodup h1, ← List.toFinset_card_of_nodup h2]
  exact Finset.card_le_card fun a ha =>
    List.mem_toFinset.2 (hsub (List.mem_toFinset.1 ha))

theorem entryPaths_cons (e : FileEntry) (r : List FileEntry) :
    entryPaths (e :: r) = e.filepath :: entryPaths r := rfl

theorem entryFor_cons (e : FileEntry) (r : List FileEntry) (fp : String) :
    entryFor (e :: r) fp = if e.filepath = fp then some e else entryFor r fp := by
  by_cases h : e.filepath = fp <;> simp [entryFor, List.find?_cons, h]

theorem ctxsFor_cons (e : FileEntry) (r : List FileEntry) (fp : String) :
    ctxsFor (e :: r) fp = if e.filepath = fp then e.matchLines else ctxsFor r fp := by
  by_cases h : e.filepath = fp <;> simp [ctxsFor, entryFor_cons, h]

theorem contextsFor_cons (fp : String) (m : RawMatch) (ms : List RawMatch) :
    contextsFor fp (m :: ms) =
      if m.filepath = fp then m.context :: contextsFor fp ms else contextsFor fp ms := by
  by_cases h : m.filepath = fp <;> simp [contextsFor, List.filter_cons, h]

theorem entryPaths_addContext (r : List FileEntry) (fp ctx : String) :
    entryPaths (addContext r fp ctx) = pushCtx (entryPaths r) fp := by
  induction r with
  | nil => simp [addContext, entryPaths, pushCtx]
  | cons e rest ih =>
      rw [addContext]
      by_cases h : e.filepath = fp
      · rw [if_pos h, entryPaths_cons, entryPaths_cons]
        have h2 : (if ctx ∈ e.matchLines then e
            else ⟨e.filepath, e.matchLines ++ [ctx]⟩ : FileEntry).filepath = e.filepath := by
          split <;> rfl
        rw [h2, pushCtx, if_pos (by simp [h])]
      · rw [if_neg h, entryPaths_cons, entryPaths_cons, ih, pushCtx, pushCtx]
        by_cases h3 : fp ∈ entryPaths rest
        · rw [if_pos h3, if_pos (List.mem_cons_of_mem _ h3)]
        · rw [if_neg h3, if_neg (by
            simp only [List.mem_cons, h3, or_false]
            exact fun hh => h hh.symm)]
          simp

theorem ctxsFor_addContext (r : List FileEntry) (a c b : String) :
    ctxsFor (addContext r a c) b =
      if b = a then pushCtx (ctxsFor r a) c else ctxsFor r b := by
  induction r with
  | nil =>
      rw [show addContext [] a c = [⟨a, [c]⟩] from rfl, ctxsFor_cons]
      by_cases hb : b = a
      · rw [if_pos hb.symm, if_pos hb]
        simp [pushCtx, ctxsFor, entryFor]
      · rw [if_neg (fun hh => hb hh.symm), if_neg hb]
  | cons e rest ih =>
      rw [addContext]
      by_cases h : e.filepath = a
      · subst h
        rw [if_pos rfl]
        have h2 : (if c ∈ e.matchLines then e
            else ⟨e.filepath, e.matchLines ++ [c]⟩ : FileEntry).filepath = e.filepath := by
          split <;> rfl
        by_cases hb : b = e.filepath
        · subst hb
          rw [if_pos rfl, ctxsFor_cons, ctxsFor_cons, h2, if_pos rfl, if_pos rfl, pushCtx]
          split <;> rfl
        · rw [if_neg hb, ctxsFor_cons, ctxsFor_cons, h2,
            if_neg (fun hh => hb hh.symm), if_neg (fun hh => hb hh.symm)]
      · rw [if_neg h]
        by_cases hb : b = a
        · rw [if_pos hb, ctxsFor_cons, ctxsFor_cons, ih, if_pos hb,
            if_neg (fun hh => h (hb ▸ hh)), if_neg h]
        · rw [if_neg hb, ctxsFor_cons, ctxsFor_cons]
          by_cases h2 : e.filepath = b
          · rw [if_pos h2, if_pos h2]
          · rw [if_neg h2, if_neg h2, ih, if_neg hb]

theorem entryPaths_foldl (ms : List RawMatch) (r0 : List FileEntry) :
    entryPaths (ms.foldl (fun r m => addContext r m.filepath m.context) r0)
      = (ms.map RawMatch.filepath).foldl pushCtx (entryPaths r0) := by
  induction ms generalizing r0 with
  | nil => rfl
  | cons m rest ih =>
      rw [List.foldl_cons, List.map_cons, List.foldl_cons, ih, entryPaths_addContext]

theorem ctxsFor_foldl (ms : List RawMatch) (r0 : List FileEntry) (fp : String) :
    ctxsFor (ms.foldl (fun r m => addContext r m.filepath m.context) r0) fp
      = (contextsFor fp ms).foldl pushCtx (ctxsFor r0 fp) := by
  induction ms generalizing r0 with
  | nil => rfl
  | cons m rest ih =>
      rw [List.foldl_cons, ih, contextsFor_cons, ctxsFor_addContext]
      by_cases h : m.filepath = fp
      · rw [if_pos h, if_pos h.symm, List.foldl_cons, h]
      · rw [if_neg h, if_neg (fun hh => h hh.symm)]

theorem entryPaths_groupMatches (ms : List RawMatch) :
    entryPaths (groupMatches ms) = dedupFirst (ms.map RawMatch.filepath) := by
  rw [groupMatches, entryPaths_foldl, foldl_pushCtx]
  rfl

theorem ctxsFor_groupMatches (ms : List RawMatch) (fp : String) :
    ctxsFor (groupMatches ms) fp = dedupFirst (contextsFor fp ms) := by
  rw [groupMatches, ctxsFor_foldl, foldl_pushCtx]
  rfl

theorem aggregateWith_eq_group (ps : List (String → String → Bool))
    (ms : List RawMatch) : aggregateWith ps ms = groupMatches (keptBy ps ms) := by
  rw [aggregateWith, groupMatches]
  suffices h : ∀ r0 : List FileEntry,
      ms.foldl (fun r m =>
        if excludedBy ps m.filepath m.context then r
        else addContext r m.filepath m.context) r0
      = (keptBy ps ms).foldl (fun r m => addContext r m.filepath m.context) r0 by
    exact h []
  induction ms with
  | nil => intro r0; rfl
  | cons m rest ih =>
      intro r0
      rw [List.foldl_cons, keptBy, List.filter_cons]
      cases hq : excludedBy ps m.filepath m.context with
      | false =>
          rw [if_neg (by simp [hq]), if_pos (by simp [keepMatch, hq]), List.foldl_cons]
          exact ih (addContext r0 m.filepath m.context)
      | true =>
          rw [if_pos (by simp [hq]), if_neg (by simp [keepMatch, hq])]
          exact ih r0

theorem aggregate_eq_aggregateWith (ms : List RawMatch) :
    aggregate ms = aggregateWith stdExclusions ms := by
  rw [aggregate, aggregateWith]
  apply List.foldl_ext
  intro r m _
  rw [processLine]
  have hexp : excludedBy stdExclusions m.filepath m.context
      = (isTestPath m.filepath || (isNodeModulesPath m.filepath
          || isDatabaseContext m.context)) := by
    simp [excludedBy, stdExclusions]
  by_cases h1 : isTestPath m.filepath <;>
    by_cases h2 : isNodeModulesPath m.filepath <;>
      by_cases h3 : isDatabaseContext m.context <;>
        simp [h1, h2, h3, hexp]

theorem mem_entryPaths (fp : String) (r : List FileEntry) :
    fp ∈ entryPaths r ↔ ∃ e ∈ r, e.filepath = fp := by
  simp [entryPaths, List.mem_map]

theorem mem_contextsFor (c fp : String) (ms : List RawMatch) :
    c ∈ contextsFor fp ms ↔ ∃ m ∈ ms, m.filepath = fp ∧ m.context = c := by
  simp only [contextsFor, List.mem_map, List.mem_filter, beq_iff_eq]
  constructor
  · rintro ⟨m, ⟨hm, hfp⟩, hc⟩
    exact ⟨m, hm, hfp, hc⟩
  · rintro ⟨m, hm, hfp, hc⟩
    exact ⟨m, ⟨hm, hfp⟩, hc⟩

theorem entryFor_of_mem {r : List FileEntry} {e : FileEntry}
    (hnd : (entryPaths r).Nodup) (he : e ∈ r) :
    entryFor r e.filepath = some e := by
  induction r with
  | nil => cases he
  | cons e0 rest ih =>
      rw [entryPaths_cons, List.nodup_cons] at hnd
      rw [entryFor_cons]
      rcases List.mem_cons.1 he with rfl | hmem
      · rw [if_pos rfl]
      · have hin : e.filepath ∈ entryPaths rest := (mem_entryPaths _ _).2 ⟨e, hmem, rfl⟩
        rw [if_neg (fun hh => hnd.1 (by rw [hh]; exact hin)), ih hnd.2 hmem]

theorem entryPaths_aggregateWith (ps : List (String → String → Bool))
    (ms : List RawMatch) :
    entryPaths (aggregateWith ps ms)
      = dedupFirst ((keptBy ps ms).map RawMatch.filepath) := by
  rw [aggregateWith_eq_group, entryPaths_groupMatches]

theorem ctxsFor_aggregateWith (ps : List (String → String → Bool))
    (ms : List RawMatch) (fp : String) :
    ctxsFor (aggregateWith ps ms) fp = dedupFirst (contextsFor fp (keptBy ps ms)) := by
  rw [aggregateWith_eq_group, ctxsFor_groupMatches]

theorem entryPaths_aggregateWith_nodup (ps : List (String → String → Bool))
    (ms : List RawMatch) : (entryPaths (aggregateWith ps ms)).Nodup := by
  rw [entryPaths_aggregateWith]
  exact dedupFirst_nodup _

theorem matchLines_of_mem_aggregateWith {ps : List (String → String → Bool)}
    {ms : List RawMatch} {e : FileEntry} (he : e ∈ aggregateWith ps ms) :
    e.matchLines = dedupFirst (contextsFor e.filepath (keptBy ps ms)) := by
  have h1 := entryFor_of_mem (entryPaths_aggregateWith_nodup ps ms) he
  have h2 := ctxsFor_aggregateWith ps ms e.filepath
  rw [ctxsFor, h1] at h2
  exact h2

theorem mem_paths_aggregateWith (ps : List (String → String → Bool))
    (ms : List RawMatch) (fp : String) :
    fp ∈ entryPaths (aggregateWith ps ms)
      ↔ ∃ m ∈ ms, keepMatch ps m = true ∧ m.filepath = fp := by
  rw [entryPaths_aggregateWith, mem_dedupFirst]
  simp only [List.mem_map, keptBy, List.mem_filter]
  constructor
  · rintro ⟨m, ⟨hm, hk⟩, hfp⟩
    exact ⟨m, hm, hk, hfp⟩
  · rintro ⟨m, hm, hk, hfp⟩
    exact ⟨m, ⟨hm, hk⟩, hfp⟩

theorem mem_pairs_aggregateWith (ps : List (String → String → Bool))
    (ms : List RawMatch) (fp c : String) :
    (∃ e ∈ aggregateWith ps ms, e.filepath = fp ∧ c ∈ e.matchLines)
      ↔ ∃ m ∈ ms, keepMatch ps m = true ∧ m.filepath = fp ∧ m.context = c := by
  constructor
  · rintro ⟨e, he, rfl, hc⟩
    rw [matchLines_of_mem_aggregateWith he, mem_dedupFirst, mem_contextsFor] at hc
    rcases hc with ⟨m, hm, hfp, hctx⟩
    rw [keptBy, List.mem_filter] at hm
    exact ⟨m, hm.1, hm.2, hfp, hctx⟩
  · rintro ⟨m, hm, hk, hfp, hctx⟩
    have hp : fp ∈ entryPaths (aggregateWith ps ms) :=
      (mem_paths_aggregateWith ps ms fp).2 ⟨m, hm, hk, hfp⟩
    rcases (mem_entryPaths _ _).1 hp with ⟨e, he, hefp⟩
    refine ⟨e, he, hefp, ?_⟩
    rw [matchLines_of_mem_aggregateWith he, hefp, mem_dedupFirst, mem_contextsFor]
    exact ⟨m, List.mem_filter.2 ⟨hm, hk⟩, hfp, hctx⟩

theorem length_entryPairs (r : List FileEntry) :
    (entryPairs r).length = totalContexts r := by
  rw [entryPairs, totalContexts, List.length_flatten, List.map_map]
  congr 1
  apply List.map_congr_left
  intro e _
  simp [List.length_map]

theorem mem_entryPairs (a c : String) (r : List FileEntry) :
    (a, c) ∈ entryPairs r ↔ ∃ e ∈ r, e.filepath = a ∧ c ∈ e.matchLines := by
  simp only [entryPairs, List.mem_flatten, List.mem_map]
  constructor
  · rintro ⟨l, ⟨e, he, rfl⟩, hmem⟩
    rcases List.mem_map.1 hmem with ⟨x, hx, hpair⟩
    cases hpair
    exact ⟨e, he, rfl, hx⟩
  · rintro ⟨e, he, rfl, hc⟩
    exact ⟨_, ⟨e, he, rfl⟩, List.mem_map.2 ⟨c, hc, rfl⟩⟩

theorem fst_mem_of_mem_entryPairs {a c : String} {r : List FileEntry}
    (h : (a, c) ∈ entryPairs r) : a ∈ entryPaths r := by
  rcases (mem_entryPairs a c r).1 h with ⟨e, he, hfp, _⟩
  exact (mem_entryPaths _ _).2 ⟨e, he, hfp⟩

theorem entryPairs_nodup {r : List FileEntry} (hnd : (entryPaths r).Nodup)
    (hml : ∀ e ∈ r, e.matchLines.Nodup) : (entryPairs r).Nodup := by
  induction r with
  | nil => simp [entryPairs]
  | cons e rest ih =>
      rw [entryPaths_cons, List.nodup_cons] at hnd
      rw [entryPairs, List.map_cons, List.flatten_cons]
      apply List.Nodup.append
      · exact (hml e (List.mem_cons_self e rest)).map
          (fun x y hxy => congrArg Prod.snd hxy)
      · exact ih hnd.2 (fun x hx => hml x (List.mem_cons_of_mem _ hx))
      · rintro ⟨p1, p2⟩ hp1 hp2
        rcases List.mem_map.1 hp1 with ⟨x, _, hpair⟩
        cases hpair
        exact hnd.1 (fst_mem_of_mem_entryPairs hp2)

theorem keepMatch_append (ps : List (String → String → Bool))
    (q : String → String → Bool) (m : RawMatch) :
    keepMatch (ps ++ [q]) m = (keepMatch ps m && !(q m.filepath m.context)) := by
  simp [keepMatch, excludedBy, List.any_append]

theorem keptBy_append (ps : List (String → String → Bool))
    (q : String → String → Bool) (ms : List RawMatch) :
    keptBy (ps ++ [q]) ms
      = (keptBy ps ms).filter (fun m => !(q m.filepath m.context)) := by
  rw [keptBy, keptBy, List.filter_filter]
  apply List.filter_congr
  intro m _
  rw [keepMatch_append, Bool.and_comm]

theorem bucketNames_cons (b : ModuleBucket) (bs : List ModuleBucket) :
    bucketNames (b :: bs) = b.moduleName :: bucketNames bs := rfl

theorem bucketFor_cons (b : ModuleBucket) (bs : List ModuleBucket) (m : String) :
    bucketFor (b :: bs) m = if b.moduleName = m then some b else bucketFor bs m := by
  by_cases h : b.moduleName = m <;> simp [bucketFor, List.find?_cons, h]

theorem entriesFor_cons (b : ModuleBucket) (bs : List ModuleBucket) (m : String) :
    entriesFor (b :: bs) m = if b.moduleName = m then b.entries else entriesFor bs m := by
  by_cases h : b.moduleName = m <;> simp [entriesFor, bucketFor_cons, h]

theorem bucketNames_addToBucket (bs : List ModuleBucket) (m : String) (e : FileEntry) :
    bucketNames (addToBucket bs m e) = pushCtx (bucketNames bs) m := by
  induction bs with
  | nil => simp [addToBucket, bucketNames, pushCtx]
  | cons b rest ih =>
      rw [addToBucket]
      by_cases h : b.moduleName = m
      · rw [if_pos h, bucketNames_cons, bucketNames_cons, pushCtx,
          if_pos (by simp [h])]
      · rw [if_neg h, bucketNames_cons, bucketNames_cons, ih, pushCtx, pushCtx]
        by_cases h3 : m ∈ bucketNames rest
        · rw [if_pos h3, if_pos (List.mem_cons_of_mem _ h3)]
        · rw [if_neg h3, if_neg (by
            simp only [List.mem_cons, h3, or_false]
            exact fun hh => h hh.symm)]
          simp

theorem entriesFor_addToBucket (bs : List ModuleBucket) (a : String)
    (e : FileEntry) (b : String) :
    entriesFor (addToBucket bs a e) b =
      if b = a then entriesFor bs a ++ [e] else entriesFor bs b := by
  induction bs with
  | nil =>
      rw [show addToBucket [] a e = [⟨a, [e]⟩] from rfl, entriesFor_cons]
      by_cases hb : b = a
      · rw [if_pos hb.symm, if_pos hb]
        rfl
      · rw [if_neg (fun hh => hb hh.symm), if_neg hb]
  | cons b0 rest ih =>
      rw [addToBucket]
      by_cases h : b0.moduleName = a
      · subst h
        rw [if_pos rfl]
        by_cases hb : b = b0.moduleName
        · subst hb
          rw [entriesFor_cons, entriesFor_cons, if_pos rfl, if_pos rfl, if_pos rfl]
        · rw [if_neg hb, entriesFor_cons, entriesFor_cons,
            if_neg (fun hh => hb hh.symm), if_neg (fun hh => hb hh.symm)]
      · rw [if_neg h]
        by_cases hb : b = a
        · rw [if_pos hb, entriesFor_cons, entriesFor_cons, ih, if_pos hb,
            if_neg (fun hh => h (hb ▸ hh)), if_neg h]
        · rw [if_neg hb, entriesFor_cons, entriesFor_cons]
          by_cases h2 : b0.moduleName = b
          · rw [if_pos h2, if_pos h2]
          · rw [if_neg h2, if_neg h2, ih, if_neg hb]

theorem bucketNames_foldl (rules : List (String × String)) (gs : List FileEntry)
    (bs0 : List ModuleBucket) :
    bucketNames (gs.foldl (fun bs g =>
        addToBucket bs (moduleOfRules rules g.filepath) g) bs0)
      = (gs.map (fun g => moduleOfRules rules g.filepath)).foldl pushCtx
          (bucketNames bs0) := by
  induction gs generalizing bs0 with
  | nil => rfl
  | cons g rest ih =>
      rw [List.foldl_cons, List.map_cons, List.foldl_cons, ih, bucketNames_addToBucket]

theorem entriesFor_foldl (rules : List (String × String)) (gs : List FileEntry)
    (bs0 : List ModuleBucket) (m : String) :
    entriesFor (gs.foldl (fun bs g =>
        addToBucket bs (moduleOfRules rules g.filepath) g) bs0) m
      = entriesFor bs0 m
          ++ gs.filter (fun g => moduleOfRules rules g.filepath == m) := by
  induction gs generalizing bs0 with
  | nil => simp
  | cons g rest ih =>
      rw [List.foldl_cons, ih, entriesFor_addToBucket, List.filter_cons]
      by_cases h : moduleOfRules rules g.filepath = m
      · rw [if_pos h.symm, if_pos (by simp [h]), h]
        simp
      · rw [if_neg (fun hh => h hh.symm), if_neg (by simp [h])]

theorem bucketNames_categorize (rules : List (String × String)) (gs : List FileEntry) :
    bucketNames (categorize rules gs)
      = dedupFirst (gs.map (fun g => moduleOfRules rules g.filepath)) := by
  rw [categorize, bucketNames_foldl, foldl_pushCtx]
  rfl

theorem entriesFor_categorize (rules : List (String × String)) (gs : List FileEntry)
    (m : String) :
    entriesFor (categorize rules gs) m
      = gs.filter (fun g => moduleOfRules rules g.filepath == m) := by
  rw [categorize, entriesFor_foldl]
  rfl

theorem mem_bucketNames (m : String) (bs : List ModuleBucket) :
    m ∈ bucketNames bs ↔ ∃ b ∈ bs, b.moduleName = m := by
  simp [bucketNames, List.mem_map]

theorem bucketFor_of_mem {bs : List ModuleBucket} {b : ModuleBucket}
    (hnd : (bucketNames bs).Nodup) (hb : b ∈ bs) :
    bucketFor bs b.moduleName = some b := by
  induction bs with
  | nil => cases hb
  | cons b0 rest ih =>
      rw [bucketNames_cons, List.nodup_cons] at hnd
      rw [bucketFor_cons]
      rcases List.mem_cons.1 hb with rfl | hmem
      · rw [if_pos rfl]
      · have hin : b.moduleName ∈ bucketNames rest :=
          (mem_bucketNames _ _).2 ⟨b, hmem, rfl⟩
        rw [if_neg (fun hh => hnd.1 (by rw [hh]; exact hin)), ih hnd.2 hmem]

theorem entries_of_mem_categorize {rules : List (String × String)}
    {gs : List FileEntry} {b : ModuleBucket} (hb : b ∈ categorize rules gs) :
    b.entries = gs.filter (fun g => moduleOfRules rules g.filepath == b.moduleName) := by
  have hnd : (bucketNames (categorize rules gs)).Nodup := by
    rw [bucketNames_categorize]
    exact dedupFirst_nodup _
  have h1 := bucketFor_of_mem hnd hb
  have h2 := entriesFor_categorize rules gs b.moduleName
  rw [entriesFor, h1] at h2
  exact h2

theorem moduleOfRules_classifyRules (fp : String) :
    moduleOfRules classifyRules fp = moduleOfPath fp := by
  rw [moduleOfRules, classifyRules, moduleOfPath]
  split_ifs <;>
    first
      | (simp_all [List.find?]; done)
      | (cases ha : strContains fp "/auth/" <;> simp_all [List.find?] <;> done)
      | (cases hi : strContains fp "/item/" <;> simp_all [List.find?] <;> done)
      | (cases hu : strContains fp "/ui/" <;> simp_all [List.find?] <;> done)

theorem categorizeMockUsageByModule_eq (gs : List FileEntry) :
    categorizeMockUsageByModule gs = categorize classifyRules gs := by
  rw [categorizeMockUsageByModule, categorize]
  apply List.foldl_ext
  intro bs g _
  rw [moduleOfRules_classifyRules]

theorem mem_scanAll (m : RawMatch) (patterns : List String)
    (tree : List SourceFile) :
    m ∈ scanAll patterns tree ↔ ∃ p ∈ patterns, m ∈ grepTree p tree := by
  simp only [scanAll, List.mem_flatten, List.mem_map]
  constructor
  · rintro ⟨l, ⟨p, hp, rfl⟩, hm⟩
    exact ⟨p, hp, hm⟩
  · rintro ⟨p, hp, hm⟩
    exact ⟨grepTree p tree, ⟨p, hp, rfl⟩, hm⟩

theorem aggregateWith_length_mono (ps : List (String → String → Bool))
    (q : String → String → Bool) (ms : List RawMatch) :
    (aggregateWith (ps ++ [q]) ms).length ≤ (aggregateWith ps ms).length := by
  have e1 : ∀ ps' : List (String → String → Bool),
      (aggregateWith ps' ms).length = (entryPaths (aggregateWith ps' ms)).length := by
    intro ps'
    simp [entryPaths, List.length_map]
  rw [e1 (ps ++ [q]), e1 ps, entryPaths_aggregateWith, entryPaths_aggregateWith]
  apply dedupFirst_length_mono
  rw [keptBy_append]
  exact (List.filter_sublist _).map RawMatch.filepath

theorem totalContexts_mono (ps : List (String → String → Bool))
    (q : String → String → Bool) (ms : List RawMatch) :
    totalContexts (aggregateWith (ps ++ [q]) ms)
      ≤ totalContexts (aggregateWith ps ms) := by
  rw [← length_entryPairs, ← length_entryPairs]
  have hnodup : ∀ ps' : List (String → String → Bool),
      (entryPairs (aggregateWith ps' ms)).Nodup := by
    intro ps'
    apply entryPairs_nodup (entryPaths_aggregateWith_nodup _ _)
    intro e he
    rw [matchLines_of_mem_aggregateWith he]
    exact dedupFirst_nodup _
  apply nodup_length_le_of_subset (hnodup (ps ++ [q])) ?_ (hnodup ps)
  rintro ⟨a, c⟩ hp
  have h1 := (mem_pairs_aggregateWith (ps ++ [q]) ms a c).1
    ((mem_entryPairs a c _).1 hp)
  rcases h1 with ⟨m, hm, hk, hfp, hctx⟩
  rw [keepMatch_append, Bool.and_eq_true] at hk
  exact (mem_entryPairs a c _).2
    ((mem_pairs_aggregateWith ps ms a c).2 ⟨m, hm, hk.1, hfp, hctx⟩)

/-- C1: within each produced FileMatchGroup the stored contexts contain no
duplicate strings; the stored list is exactly the first-occurrence
deduplication of the surviving raw contexts for that file (so two raw
matches with identical filePath and lineContext collapse to one stored
context, whatever their patterns), and it is a sublist of the raw context
stream, preserving first-occurrence order. -/
theorem claim_c1_contexts_dedup (ms : List RawMatch) (e : FileEntry)
    (he : e ∈ aggregate ms) :
    e.matchLines.Nodup ∧
    e.matchLines = dedupFirst (contextsFor e.filepath (keptBy stdExclusions ms)) ∧
    e.matchLines.Sublist (contextsFor e.filepath (keptBy stdExclusions ms)) ∧
    (∀ c, c ∈ e.matchLines ↔ c ∈ contextsFor e.filepath (keptBy stdExclusions ms)) := by
  rw [aggregate_eq_aggregateWith] at he
  have hml := matchLines_of_mem_aggregateWith he
  refine ⟨?_, hml, ?_, ?_⟩
  · rw [hml]
    exact dedupFirst_nodup _
  · rw [hml]
    exact dedupFirst_sublist _
  · intro c
    rw [hml, mem_dedupFirst]

theorem claim_c1_witness :
    (⟨"src/app/a.ts", ["const mockData = 1;"]⟩ : FileEntry) ∈
      aggregate [⟨"src/app/a.ts", "const mockData = 1;", "mock"⟩,
                 ⟨"src/app/a.ts", "const mockData = 1;", "mockData"⟩] ∧
    (⟨"src/app/a.ts", ["const mockData = 1;"]⟩ : FileEntry).matchLines.Nodup := by
  have hmem : (⟨"src/app/a.ts", ["const mockData = 1;"]⟩ : FileEntry) ∈
      aggregate [⟨"src/app/a.ts", "const mockData = 1;", "mock"⟩,
                 ⟨"src/app/a.ts", "const mockData = 1;", "mockData"⟩] := by decide
  exact ⟨hmem, (claim_c1_contexts_dedup _ _ hmem).1⟩

/-- C2: the aggregate output never holds two entries with the same
filepath (the filepath list is duplicate-free), and an empty input
yields an empty output. -/
theorem claim_c2_unique_filepaths (ms : List RawMatch) :
    (entryPaths (aggregate ms)).Nodup ∧ aggregate [] = [] := by
  constructor
  · rw [aggregate_eq_aggregateWith]
    exact entryPaths_aggregateWith_nodup _ _
  · rfl

/-- C3: classification is total with first-match-wins semantics: every
bucket holds exactly the groups the first matching rule sends to it, in
input order; bucket names are distinct; every group lands in a bucket
(and in only one); a filepath matching no rule goes to "unknown"; the
first rule whose substring occurs wins; and the script's literal if/else
classifier agrees with the rule-list semantics. -/
theorem claim_c3_classify_total (rules : List (String × String)) (gs : List FileEntry) :
    (∀ b ∈ categorize rules gs,
        b.entries = gs.filter (fun g => moduleOfRules rules g.filepath == b.moduleName)) ∧
    (bucketNames (categorize rules gs)).Nodup ∧
    (∀ g ∈ gs, ∃ b ∈ categorize rules gs,
        b.moduleName = moduleOfRules rules g.filepath ∧ g ∈ b.entries) ∧
    (∀ b1 b2, b1 ∈ categorize rules gs → b2 ∈ categorize rules gs →
        ∀ g : FileEntry, g ∈ b1.entries → g ∈ b2.entries → b1 = b2) ∧
    (∀ fp, (∀ r ∈ rules, strContains fp r.1 = false) →
        moduleOfRules rules fp = "unknown") ∧
    (∀ fp pre s m post, rules = pre ++ (s, m) :: post →
        (∀ r ∈ pre, strContains fp r.1 = false) → strContains fp s = true →
        moduleOfRules rules fp = m) ∧
    categorizeMockUsageByModule gs = categorize classifyRules gs := by
  have hnd : (bucketNames (categorize rules gs)).Nodup := by
    rw [bucketNames_categorize]
    exact dedupFirst_nodup _
  refine ⟨?_, hnd, ?_, ?_, ?_, ?_, categorizeMockUsageByModule_eq gs⟩
  · intro b hb
    exact entries_of_mem_categorize hb
  · intro g hg
    have hm : moduleOfRules rules g.filepath ∈ bucketNames (categorize rules gs) := by
      rw [bucketNames_categorize, mem_dedupFirst]
      exact List.mem_map.2 ⟨g, hg, rfl⟩
    rcases (mem_bucketNames _ _).1 hm with ⟨b, hb, hname⟩
    refine ⟨b, hb, hname, ?_⟩
    rw [entries_of_mem_categorize hb, List.mem_filter]
    exact ⟨hg, by simp [hname]⟩
  · intro b1 b2 hb1 hb2 g hg1 hg2
    rw [entries_of_mem_categorize hb1, List.mem_filter] at hg1
    rw [entries_of_mem_categorize hb2, List.mem_filter] at hg2
    have hname : b1.moduleName = b2.moduleName := by
      have h1 := hg1.2
      have h2 := hg2.2
      rw [beq_iff_eq] at h1 h2
      rw [← h1, ← h2]
    have hf1 := bucketFor_of_mem hnd hb1
    have hf2 := bucketFor_of_mem hnd hb2
    rw [hname] at hf1
    rw [hf1] at hf2
    exact Option.some.inj hf2
  · intro fp h
    rw [moduleOfRules, List.find?_eq_none.2 (fun x hx => by simp [h x hx])]
  · intro fp pre s m post hre hpre hs
    subst hre
    rw [moduleOfRules, List.find?_append,
      List.find?_eq_none.2 (fun x hx => by simp [hpre x hx]),
      Option.none_or, List.find?_cons]
    simp [hs]

theorem claim_c4_counterexample :
    List.Perm ["mock", "MOCK_"] ["MOCK_", "mock"] ∧
    findMockUsage ["mock", "MOCK_"] treeAB ≠ findMockUsage ["MOCK_", "mock"] treeAB := by
  constructor
  · decide
  · decide

/-- C4 (amended): permuting the pattern set preserves the aggregated
output as a set — the same filepaths appear and each file carries the
same contexts — but not necessarily the order of groups or of contexts
within a group. -/
theorem claim_c4_perm_same_sets (p1 p2 : List String) (hperm : p1.Perm p2)
    (tree : List SourceFile) :
    (∀ fp, fp ∈ entryPaths (findMockUsage p1 tree)
        ↔ fp ∈ entryPaths (findMockUsage p2 tree)) ∧
    (∀ fp c, (∃ e ∈ findMockUsage p1 tree, e.filepath = fp ∧ c ∈ e.matchLines)
        ↔ (∃ e ∈ findMockUsage p2 tree, e.filepath = fp ∧ c ∈ e.matchLines)) := by
  have hkey : ∀ m : RawMatch, m ∈ scanAll p1 tree ↔ m ∈ scanAll p2 tree := by
    intro m
    rw [mem_scanAll, mem_scanAll]
    constructor
    · rintro ⟨p, hp, hm⟩
      exact ⟨p, hperm.mem_iff.1 hp, hm⟩
    · rintro ⟨p, hp, hm⟩
      exact ⟨p, hperm.mem_iff.2 hp, hm⟩
  constructor
  · intro fp
    rw [findMockUsage, findMockUsage, aggregate_eq_aggregateWith,
      aggregate_eq_aggregateWith, mem_paths_aggregateWith, mem_paths_aggregateWith]
    constructor
    · rintro ⟨m, hm, hk, hfp⟩
      exact ⟨m, (hkey m).1 hm, hk, hfp⟩
    · rintro ⟨m, hm, hk, hfp⟩
      exact ⟨m, (hkey m).2 hm, hk, hfp⟩
  · intro fp c
    rw [findMockUsage, findMockUsage, aggregate_eq_aggregateWith,
      aggregate_eq_aggregateWith, mem_pairs_aggregateWith, mem_pairs_aggregateWith]
    constructor
    · rintro ⟨m, hm, h⟩
      exact ⟨m, (hkey m).1 hm, h⟩
    · rintro ⟨m, hm, h⟩
      exact ⟨m, (hkey m).2 hm, h⟩

theorem claim_c4_witness :
    "a.ts" ∈ entryPaths (findMockUsage ["mock", "MOCK_"] treeAB)
      ↔ "a.ts" ∈ entryPaths (findMockUsage ["MOCK_", "mock"] treeAB) :=
  (claim_c4_perm_same_sets ["mock", "MOCK_"] ["MOCK_", "mock"] (by decide) treeAB).1 "a.ts"

theorem claim_c5_counterexample :
    findMockUsage MOCK_PATTERNS treeNoMatch = [] ∧
    mainReport treeNoMatch = reportHeader ++ reportFooter ∧
    strContains (mainReport treeNoMatch) "no findings" = false ∧
    strContains (mainReport treeNoMatch) "No findings" = false ∧
    strContains (mainReport treeNoMatch) "0 files" = false := by
  refine ⟨by decide, by decide, by decide, by decide, by decide⟩

/-- C5 (amended): when no file matches any configured pattern the run is
not an error: the scan aggregates to the empty sequence, the report is
exactly the fixed overview header followed by the fixed closing section —
it contains the heading sections and zero per-module sections, but no
summary text about the absence of findings (the zero count is only logged
to the console) — and the process exit status is 0. -/
theorem claim_c5_empty_run (tree : List SourceFile)
    (h : findMockUsage MOCK_PATTERNS tree = []) :
    mainReport tree = reportHeader ++ reportFooter ∧
    categorizeMockUsageByModule (findMockUsage MOCK_PATTERNS tree) = [] ∧
    strContains (mainReport tree) "# Workstream Mock Replacement Report" = true ∧
    strContains (mainReport tree) "## Overview" = true ∧
    strContains (mainReport tree) "## Mock Data Usage" = true ∧
    strContains (mainReport tree) "### " = false ∧
    exitCode (runMain tree) = 0 := by
  have hb : categorizeMockUsageByModule (findMockUsage MOCK_PATTERNS tree) = [] := by
    rw [h]
    rfl
  have hr : mainReport tree = reportHeader ++ reportFooter := by
    rw [mainReport, hb]
    decide
  refine ⟨hr, hb, ?_, ?_, ?_, ?_, rfl⟩ <;> rw [hr] <;> decide

theorem claim_c5_witness :
    findMockUsage MOCK_PATTERNS treeNoMatch = [] ∧
    strContains (mainReport treeNoMatch) "### " = false := by
  have h : findMockUsage MOCK_PATTERNS treeNoMatch = [] := by decide
  exact ⟨h, (claim_c5_empty_run treeNoMatch h).2.2.2.2.2.1⟩

/-- C6: exclusion predicates only filter: every filepath in the aggregate
output comes from a surviving (non-excluded) raw match, and appending one
more exclusion predicate never increases the number of groups or the
total number of stored contexts; the script's aggregation is the
predicate-parameterized one at its three standard predicates. -/
theorem claim_c6_exclusion_monotone (ps : List (String → String → Bool))
    (q : String → String → Bool) (ms : List RawMatch) :
    (∀ fp, fp ∈ entryPaths (aggregateWith ps ms) →
        ∃ m ∈ ms, keepMatch ps m = true ∧ m.filepath = fp) ∧
    (aggregateWith (ps ++ [q]) ms).length ≤ (aggregateWith ps ms).length ∧
    totalContexts (aggregateWith (ps ++ [q]) ms)
      ≤ totalContexts (aggregateWith ps ms) ∧
    aggregate ms = aggregateWith stdExclusions ms := by
  refine ⟨?_, aggregateWith_length_mono ps q ms, totalContexts_mono ps q ms,
    aggregate_eq_aggregateWith ms⟩
  intro fp h
  exact (mem_paths_aggregateWith ps ms fp).1 h

/-- C7: for the scenario tree holding `src/assessment/loader.ts` with the
line `const mockData = load();`, pattern "mock" and classifier rule
("assessment", "assessment"), the classified buckets hold exactly that
file under "assessment", and the rendered report contains an
"Assessment Module" section listing the file with its context line. -/
theorem claim_c7_assessment_scenario :
    categorize [("assessment", "assessment")] (findMockUsage ["mock"] treeC7)
      = [⟨"assessment", [⟨"src/assessment/loader.ts", ["const mockData = load();"]⟩]⟩] ∧
    strContains (runPipeline ["mock"] [("assessment", "assessment")] treeC7)
      "### Assessment Module" = true ∧
    strContains (runPipeline ["mock"] [("assessment", "assessment")] treeC7)
      "#### `src/assessment/loader.ts`" = true ∧
    strContains (runPipeline ["mock"] [("assessment", "assessment")] treeC7)
      "```\nconst mockData = load();\n```" = true := by
  refine ⟨by decide, by decide, by decide, by decide⟩

/-- C8: the pipeline is deterministic: equal pattern sets, rule lists and
file trees produce byte-identical report strings, and the script's own
report is a function of the tree alone. -/
theorem claim_c8_deterministic (p1 p2 : List String)
    (r1 r2 : List (String × String)) (t1 t2 : List SourceFile)
    (h : p1 = p2 ∧ r1 = r2 ∧ t1 = t2) :
    runPipeline p1 r1 t1 = runPipeline p2 r2 t2 ∧ mainReport t1 = mainReport t2 := by
  obtain ⟨rfl, rfl, rfl⟩ := h
  exact ⟨rfl, rfl⟩

theorem claim_c8_witness :
    runPipeline ["mock"] [("assessment", "assessment")] treeC7
      = runPipeline ["mock"] [("assessment", "assessment")] treeC7 :=
  (claim_c8_deterministic ["mock"] ["mock"] [("assessment", "assessment")]
    [("assessment", "assessment")] treeC7 treeC7 ⟨rfl, rfl, rfl⟩).1

/-- C9: every rendered per-file block contains the context header as the
literal fixed text with the unexpanded placeholder, and even for an entry
with three stored matches the actual count never appears: the header is
built from a single-quoted (non-template) JavaScript string. -/
theorem claim_c9_literal_placeholder :
    (∀ e : FileEntry, strContains (renderEntry e) contextHeaderLine = true) ∧
    strContains (renderEntry ⟨"a.ts", ["x", "y", "z"]⟩) "showing 1 of 3 matches" = false := by
  constructor
  · intro e
    rw [strContains_iff]
    rcases hml : e.matchLines with _ | ⟨m, rest⟩
    · refine ⟨("#### `" ++ e.filepath ++ "`\n\n").data,
        ("\n\n" : String).data ++ ("" : String).data, ?_⟩
      simp [renderEntry, hml, String.data_append, contextHeaderLine, List.append_assoc]
    · refine ⟨("#### `" ++ e.filepath ++ "`\n\n").data,
        ("\n\n" : String).data ++ ("```\n" ++ m ++ "\n```\n\n").data, ?_⟩
      simp [renderEntry, hml, String.data_append, contextHeaderLine, List.append_assoc]
  · decide

/-- C10: the test-file exclusion is a bare substring test on the whole
path: whenever a filepath contains "test", "__tests__" or "spec"
anywhere, no aggregate entry carries that filepath — including the
non-test paths src/latest/... (contains "test") and src/inspect/...
(contains "spec"), whose matches are dropped entirely. -/
theorem claim_c10_bare_substring (ms : List RawMatch) (fp : String)
    (h : strContains fp "test" = true ∨ strContains fp "__tests__" = true
        ∨ strContains fp "spec" = true) :
    (∀ e ∈ aggregate ms, e.filepath ≠ fp) ∧
    aggregate [⟨"src/latest/app.ts", "mockData", "mock"⟩] = [] ∧
    aggregate [⟨"src/inspect/app.ts", "mockData", "mock"⟩] = [] := by
  refine ⟨?_, by decide, by decide⟩
  intro e he heq
  rw [aggregate_eq_aggregateWith] at he
  have hfp : e.filepath ∈ entryPaths (aggregateWith stdExclusions ms) :=
    (mem_entryPaths _ _).2 ⟨e, he, rfl⟩
  rcases (mem_paths_aggregateWith _ _ _).1 hfp with ⟨m, _, hk, hfpm⟩
  have htest : isTestPath m.filepath = false := by
    simp only [keepMatch, excludedBy, stdExclusions, List.any_cons, List.any_nil,
      Bool.not_eq_true', Bool.or_eq_false_iff] at hk
    exact hk.1
  rw [hfpm, heq, isTestPath] at htest
  rcases h with h | h | h <;> simp [h] at htest

theorem claim_c10_witness :
    (strContains "src/latest/app.ts" "test" = true ∨
     strContains "src/latest/app.ts" "__tests__" = true ∨
     strContains "src/latest/app.ts" "spec" = true) ∧
    aggregate [⟨"src/latest/app.ts", "mockData", "mock"⟩] = [] := by
  have h : strContains "src/latest/app.ts" "test" = true ∨
      strContains "src/latest/app.ts" "__tests__" = true ∨
      strContains "src/latest/app.ts" "spec" = true := Or.inl (by decide)
  exact ⟨h, (claim_c10_bare_substring [⟨"src/latest/app.ts", "mockData", "mock"⟩]
    "src/latest/app.ts" h).2.1⟩
